import Mathlib

/-!
Verification of the alignment-reconciliation codec (SAM notebook) and the
indexed sequence store (FASTA notebook) of this repository.

The Python source is shallowly embedded: strings become `List Char`,
Python exceptions (AssertionError, RuntimeError, the out-of-bounds raise in
`FastaIndexed.get`) become `Except` errors, and the file handle of the
indexed reader becomes the file contents (`List Char`) together with an
explicit trace of seek/read events.  All definitions are structurally
recursive and executable, so concrete runs are settled by `decide`.
-/

deriving instance DecidableEq for Except

namespace MedAi

/-! ## Shared character helpers

Python `str.rstrip`, `str.split()[0]` and the `\s` regex class, modelled
for the character set that matters here (ASCII whitespace). -/

/-- The characters matched by Python whitespace stripping (`rstrip`, `\s`). -/
def isSpacePy (c : Char) : Bool :=
  c = ' ' || c = '\t' || c = '\n' || c = '\r' || c = '\x0b' || c = '\x0c'

/-- Python `s.rstrip()`: drop trailing whitespace. -/
def rstrip (l : List Char) : List Char :=
  (l.reverse.dropWhile isSpacePy).reverse

/-- Python `s.split()[0]` when the result is nonempty: the first
whitespace-delimited token. -/
def firstTok (l : List Char) : List Char :=
  (l.dropWhile isSpacePy).takeWhile (fun c => !isSpacePy c)

/-- Python `re.sub(r'\s+', '', s)`: remove every whitespace character. -/
def stripWs (l : List Char) : List Char :=
  l.filter (fun c => !isSpacePy c)

/-! ## SAM component: CIGAR decoder (`cigarToList`)

Errors: `assertFail` stands for a Python `AssertionError` (the notebook's
malformed-input checks are `assert` statements), `runtimeErr` for a raised
`RuntimeError` (or the raise of an exception whose construction itself
fails).  The spec's names `MalformedCigar` / `MalformedMdz` /
`AlignmentDesynchronized` all surface as `assert` failures in the code. -/

inductive SamErr where
  | assertFail
  | runtimeErr
deriving Repr, DecidableEq

/-- The notebook's `op_map` dictionary: CIGAR letters to numeric op codes. -/
def op_map (c : Char) : Option Nat :=
  if c = 'M' then some 0
  else if c = '=' then some 0
  else if c = 'X' then some 0
  else if c = 'I' then some 1
  else if c = 'D' then some 2
  else if c = 'N' then some 3
  else if c = 'S' then some 4
  else if c = 'H' then some 5
  else if c = 'P' then some 6
  else none

/-- The numeric value of a decimal digit character. -/
def digitVal (c : Char) : Nat := c.toNat - 48

/-- Single pass over the CIGAR string, carrying the run length accumulated
so far and whether any digit is pending since the last emitted operation.
Mirrors the nested while loops of `cigarToList`: a digit extends the
current run; any other character must be a valid operation letter
(`assert op in op_map`) and emits `(op, run)`; running out of characters
with digits pending is the failed `assert i < len(cigar)`. -/
def cigarGo : List Char → Nat → Bool → Except SamErr (List (Nat × Nat))
  | [], _, pending => if pending then .error .assertFail else .ok []
  | c :: cs, run, _ =>
    if c.isDigit then cigarGo cs (run * 10 + digitVal c) true
    else
      match op_map c with
      | none => .error .assertFail
      | some op => (cigarGo cs 0 false).map (fun t => (op, run) :: t)

/-- The notebook's `cigarToList`: parse a CIGAR string into `(op, run)`
pairs, with op codes as in `op_map`. -/
def cigarToList (s : String) : Except SamErr (List (Nat × Nat)) :=
  cigarGo s.toList 0 false

/-! ## SAM component: MD:Z decoder (`mdzToList`)

The notebook scans the string with three maximal-munch branches (digit
run, letter run, `^`-prefixed letter run).  Embedded as a character-driven
state machine with one state per open run; each transition that closes a
run emits its entry.  Entries are `(op, run, refChars)` with op `0` =
match, `1` = mismatch, `2` = deletion, exactly as in the source. -/

/-- An MD:Z entry `[op, run, string]` of the source. -/
abbrev MdzE := Nat × Nat × List Char

/-- Scanner state: which run is currently open. -/
inductive MdzSt where
  | base
  | dig (run : Nat)
  | alpha (acc : List Char)
  | caret0
  | caret (acc : List Char)
deriving Repr, DecidableEq

/-- Close the currently open run, emitting its entry.  A zero-length match
run is not appended (`if run > 0` in the source); a `^` with no following
letters fails the `assert len(refstr) > 0`. -/
def mdzFinish : MdzSt → Except SamErr (List MdzE)
  | .base => .ok []
  | .dig run => if 0 < run then .ok [(0, run, [])] else .ok []
  | .alpha acc => .ok [(1, acc.length, acc)]
  | .caret0 => .error .assertFail
  | .caret acc => .ok [(2, acc.length, acc)]

/-- One character step.  Returns the entries emitted (the closed run, if a
new run begins) and the next state.  Any character that is neither digit,
letter nor `^` raises (`RuntimeError` in the source). -/
def mdzFeed (st : MdzSt) (c : Char) : Except SamErr (List MdzE × MdzSt) :=
  if c.isDigit then
    match st with
    | .base => .ok ([], .dig (digitVal c))
    | .dig run => .ok ([], .dig (run * 10 + digitVal c))
    | .alpha acc => .ok ([(1, acc.length, acc)], .dig (digitVal c))
    | .caret0 => .error .assertFail
    | .caret acc => .ok ([(2, acc.length, acc)], .dig (digitVal c))
  else if c.isAlpha then
    match st with
    | .base => .ok ([], .alpha [c])
    | .dig run => .ok (if 0 < run then [(0, run, [])] else [], .alpha [c])
    | .alpha acc => .ok ([], .alpha (acc ++ [c]))
    | .caret0 => .ok ([], .caret [c])
    | .caret acc => .ok ([], .caret (acc ++ [c]))
  else if c = '^' then
    match st with
    | .base => .ok ([], .caret0)
    | .dig run => .ok (if 0 < run then [(0, run, [])] else [], .caret0)
    | .alpha acc => .ok ([(1, acc.length, acc)], .caret0)
    | .caret0 => .error .assertFail
    | .caret _ => .error .assertFail
  else .error .runtimeErr

/-- Drive the scanner over the whole string. -/
def mdzRun : List Char → MdzSt → Except SamErr (List MdzE)
  | [], st => mdzFinish st
  | c :: cs, st =>
    match mdzFeed st c with
    | .error e => .error e
    | .ok (out, st2) => (mdzRun cs st2).map (fun t => out ++ t)

/-- The notebook's `mdzToList`: parse an MD:Z string into
`(op, run, refChars)` entries. -/
def mdzToList (s : String) : Except SamErr (List MdzE) :=
  mdzRun s.toList .base

/-! ## SAM component: reconciler (`cigarMdzToStacked`)

State of the walk.  The Python code copies the outer list
(`mdp = mdp_orig[:]`) and keeps a cursor `mdo` into it; the cursor only
moves forward and the only mutation is shrinking the run at the cursor
(`mdp[mdo][1] -= run_comb`).  We therefore split the list at the cursor:
`done` are the entries strictly before `mdo` (exactly as they sit in the
list at that point) and `rem` the entries from `mdo` on, so that
`done ++ rem` is the content of `mdp` and `mdo = done.length`.

Because `mdp_orig[:]` is a shallow copy, the inner `[op, run, str]` lists
are shared with the caller: the in-place shrink writes through to the
caller's parsed MD:Z list.  `cigarMdzToStacked` below therefore returns
`done ++ rem` as its third component: the content of the caller's
`mdp_orig` after the call. -/

structure MState where
  done : List MdzE
  rem : List MdzE
  rdoff : Nat
  rds : List Char
  rfs : List Char
deriving Repr, DecidableEq

/-- The inner `while runleft > 0 and mdo < len(mdp)` loop of the
`MatchOrMismatch` branch.  Each iteration takes
`run_comb = min(runleft, run_m)` characters from the entry at the cursor;
a match entry contributes the read slice to both tracks, a mismatch entry
contributes its own `refChars` (whose length must equal `run_comb`) to the
reference track.  When `run_comb < run_m` (possible only with
`run_comb = runleft`, so the loop guard fails next) the entry is shrunk in
place and the loop exits; otherwise the cursor advances past the entry. -/
def mLoop (seq : List Char) (runleft rdoff : Nat) (done : List MdzE)
    (rds rfs : List Char) : List MdzE → Except SamErr MState
  | [] => .ok ⟨done, [], rdoff, rds, rfs⟩
  | (op_m, run_m, st_m) :: rem2 =>
    if runleft = 0 then .ok ⟨done, (op_m, run_m, st_m) :: rem2, rdoff, rds, rfs⟩
    else if op_m = 0 ∨ op_m = 1 then
      let run_comb := min runleft run_m
      let piece := (seq.drop rdoff).take run_comb
      if op_m = 0 then
        if run_comb < run_m then
          .ok ⟨done, (op_m, run_m - run_comb, st_m) :: rem2,
               rdoff + run_comb, rds ++ piece, rfs ++ piece⟩
        else
          mLoop seq (runleft - run_comb) (rdoff + run_comb)
            (done ++ [(op_m, run_m, st_m)]) (rds ++ piece) (rfs ++ piece) rem2
      else
        if st_m.length = run_comb then
          if run_comb < run_m then .error .assertFail
          else
            mLoop seq (runleft - run_comb) (rdoff + run_comb)
              (done ++ [(op_m, run_m, st_m)]) (rds ++ piece) (rfs ++ st_m) rem2
        else .error .assertFail
    else .error .assertFail

/-- The main loop of `cigarMdzToStacked` over the CIGAR operations.  The
entry guard is the source's `assert skipping or mdo < len(mdp)`; the final
`[]` case is the post-loop `assert mdo == len(mdp)`. -/
def stackGo (seq : List Char) : List (Nat × Nat) → MState → Except SamErr MState
  | [], st => if st.rem = [] then .ok st else .error .assertFail
  | (op, run) :: rest, st =>
    if (op = 4 ∨ op = 5) ∨ st.rem ≠ [] then
      if op = 0 then
        match mLoop seq run st.rdoff st.done st.rds st.rfs st.rem with
        | .error e => .error e
        | .ok st2 => stackGo seq rest st2
      else if op = 1 then
        stackGo seq rest ⟨st.done, st.rem, st.rdoff + run,
          st.rds ++ (seq.drop st.rdoff).take run,
          st.rfs ++ List.replicate run '-'⟩
      else if op = 2 then
        match st.rem with
        | [] => .error .assertFail
        | (op_m, run_m, st_m) :: rem2 =>
          if op_m = 2 ∧ run = run_m ∧ st_m.length = run then
            stackGo seq rest ⟨st.done ++ [(op_m, run_m, st_m)], rem2, st.rdoff,
              st.rds ++ List.replicate run '-', st.rfs ++ st_m⟩
          else .error .assertFail
      else if op = 3 then
        stackGo seq rest ⟨st.done, st.rem, st.rdoff,
          st.rds ++ List.replicate run '-', st.rfs ++ List.replicate run '-'⟩
      else if op = 4 then
        stackGo seq rest ⟨st.done, st.rem, st.rdoff + run,
          st.rds ++ ((seq.drop st.rdoff).take run).map Char.toLower,
          st.rfs ++ List.replicate run ' '⟩
      else if op = 5 then
        stackGo seq rest ⟨st.done, st.rem, st.rdoff,
          st.rds ++ List.replicate run '!',
          st.rfs ++ List.replicate run ' '⟩
      else .error .runtimeErr
    else .error .assertFail

/-- The notebook's `cigarMdzToStacked`.  Returns the two track strings and,
third, the content of the caller's `mdp_orig` after the call (see the
aliasing note above `MState`). -/
def cigarMdzToStacked (seq : List Char) (cgp : List (Nat × Nat))
    (mdp_orig : List MdzE) :
    Except SamErr (List Char × List Char × List MdzE) :=
  match stackGo seq cgp ⟨[], mdp_orig, 0, [], []⟩ with
  | .error e => .error e
  | .ok st => .ok (st.rds, st.rfs, st.done ++ st.rem)

/-! Run-length totals used to state the track-length invariant. -/

/-- Sum of all CIGAR run lengths. -/
def cigarTotal : List (Nat × Nat) → Nat
  | [] => 0
  | (_, run) :: rest => run + cigarTotal rest

/-- Total read characters consumed: runs of ops `M/I/S` (0, 1, 4). -/
def readConsume : List (Nat × Nat) → Nat
  | [] => 0
  | (op, run) :: rest =>
    (if op = 0 ∨ op = 1 ∨ op = 4 then run else 0) + readConsume rest

/-- Total `MatchOrMismatch` (op 0) run length of a CIGAR list. -/
def mTotal : List (Nat × Nat) → Nat
  | [] => 0
  | (op, run) :: rest => (if op = 0 then run else 0) + mTotal rest

/-- Total match+mismatch run length of an MD:Z list. -/
def mdzMM : List MdzE → Nat
  | [] => 0
  | (op, run, _) :: rest => (if op = 0 ∨ op = 1 then run else 0) + mdzMM rest

/-! ## FASTA component: the indexer (`index_fasta`)

The file handle iteration `for ln in fh` becomes a list of lines, each
line carrying its terminator bytes, exactly as Python yields them.  The
`Except Unit` error models the `IndexError` raised by `ln[0]` on an empty
line or by `long_name.split()[0]` on a header with an empty name. -/

/-- One index record `(short name, length, byte offset, max chars per
line, max bytes per line)`, as produced by `index_fasta`. -/
structure FaiEntry where
  name : List Char
  seqLen : Nat
  byteOff : Nat
  charsPerLine : Nat
  bytesPerLine : Nat
deriving Repr, DecidableEq

/-- The loop state of `index_fasta`, one field per Python local. -/
structure IdxSt where
  index : List FaiEntry
  current : Option (List Char)
  curOff : Nat
  runSeqLen : Nat
  runByteOff : Nat
  lineExc : Nat
  lineInc : Nat
deriving Repr, DecidableEq

/-- The `if current_short_name is not None: index.append(...)` flush. -/
def idxFlush (st : IdxSt) : List FaiEntry :=
  match st.current with
  | none => st.index
  | some nm => st.index ++ [⟨nm, st.runSeqLen, st.curOff, st.lineExc, st.lineInc⟩]

/-- One iteration of the `for ln in fh` loop of `index_fasta`. -/
def idxStep (st : IdxSt) (ln : List Char) : Except Unit IdxSt :=
  match ln with
  | [] => .error ()
  | c :: _ =>
    let stripped := rstrip ln
    let rbo := st.runByteOff + ln.length
    if c = '>' then
      let nm := firstTok (stripped.drop 1)
      if nm = [] then .error ()
      else .ok ⟨idxFlush st, some nm, rbo, 0, rbo, st.lineExc, st.lineInc⟩
    else
      .ok ⟨st.index, st.current, st.curOff,
        st.runSeqLen + stripped.length, rbo,
        max st.lineExc stripped.length, max st.lineInc ln.length⟩

/-- The loop of `index_fasta` followed by the final flush. -/
def index_go : List (List Char) → IdxSt → Except Unit (List FaiEntry)
  | [], st => .ok (idxFlush st)
  | ln :: rest, st =>
    match idxStep st ln with
    | .error e => .error e
    | .ok st2 => index_go rest st2

/-- The notebook's `index_fasta`, over the file's lines (terminators
included in each line). -/
def index_fasta (lines : List (List Char)) : Except Unit (List FaiEntry) :=
  index_go lines ⟨[], none, 0, 0, 0, 0, 0⟩

/-! ## FASTA component: the indexed reader (`FastaIndexed.get`)

The method is modelled after its dictionary lookups: the backing file is
its character content `fa`, and the per-record index fields are passed
directly.  The result pairs the returned value (or the out-of-bounds
failure, raised before any file operation) with the trace of seek/read
events performed on the handle, so that the access pattern itself is a
theorem subject.  `fh.read n` at position `p` is `(fa.drop p).take n`
(like Python's `read`, it returns fewer bytes at end of file).

The source raises on the out-of-bounds path before computing any offset
or touching the handle; we model that raise as `rangeOutOfBounds` (the
exception's class name in the notebook is stale — `ReferenceOOB` is not
defined, `FastaOOB` is — but either way the call fails at that point with
no seek performed).  Division by a zero `charsPerLine` would raise in
Python; theorems below only use entries with `charsPerLine ≥ 1`. -/

inductive FaErr where
  | rangeOutOfBounds
deriving Repr, DecidableEq

/-- An operation performed on the backing file handle. -/
inductive FileEvent where
  | seek (pos : Nat)
  | read (n : Nat)
deriving Repr, DecidableEq

/-- The notebook's `FastaIndexed.get`, for one record of the index. -/
def FastaIndexed.get (fa : List Char)
    (offset lens charsPerLine bytesPerLine start ln : Nat) :
    Except FaErr (List Char) × List FileEvent :=
  if lens < start + ln then (.error .rangeOutOfBounds, [])
  else
    let byteOff := offset + start / charsPerLine * bytesPerLine + start % charsPerLine
    let left := charsPerLine - start % charsPerLine
    if ln < left then
      ((fa.drop byteOff).take ln |> .ok, [.seek byteOff, .read ln])
    else
      let nbreaks := 1 + (ln - left) / charsPerLine
      let count := ln + nbreaks * (bytesPerLine - charsPerLine)
      (stripWs ((fa.drop byteOff).take count) |> .ok,
       [.seek byteOff, .read count])

/-! ## Structured sequence files

To quantify over well-formed FASTA files we build them from records: a
record is a short name and its data-line contents (no terminators).  The
builder terminates every line with a single `'\n'`, which is the layout
the notebook's own example files use. -/

/-- A record: `(short name, data line contents)`. -/
abbrev FaRecord := List Char × List (List Char)

/-- A data line as stored in the file: content plus terminator. -/
def dataLine (d : List Char) : List Char := d ++ ['\n']

/-- A minimal header line for a record. -/
def headerLine (nm : List Char) : List Char := '>' :: (nm ++ ['\n'])

/-- The lines of one record. -/
def recordLines (r : FaRecord) : List (List Char) :=
  headerLine r.1 :: r.2.map dataLine

/-- The lines of a whole file. -/
def fileLines (rs : List FaRecord) : List (List Char) :=
  (rs.map recordLines).flatten

/-- The byte content of a whole file. -/
def fileChars (rs : List FaRecord) : List Char :=
  (fileLines rs).flatten

/-- The fully materialized, whitespace-stripped sequence of a record. -/
def recSeq (r : FaRecord) : List Char := r.2.flatten

/-- A usable record name: nonempty, no whitespace. -/
abbrev goodName (nm : List Char) : Prop :=
  nm ≠ [] ∧ ∀ c ∈ nm, isSpacePy c = false

/-- A usable data line content: nonempty, no whitespace, and not starting
with the header marker. -/
abbrev goodData (d : List Char) : Prop :=
  d ≠ [] ∧ (∀ c ∈ d, isSpacePy c = false) ∧ d.head? ≠ some '>'

/-- A record whose name and data lines are usable. -/
abbrev goodRec (r : FaRecord) : Prop :=
  goodName r.1 ∧ ∀ d ∈ r.2, goodData d

/-- Data lines wrapped at width `C`: at least one line, every non-final
line exactly `C` characters, the final line between 1 and `C`. -/
def wrapped (C : Nat) : List (List Char) → Prop
  | [] => False
  | [d] => 1 ≤ d.length ∧ d.length ≤ C
  | d :: d2 :: rest => d.length = C ∧ wrapped C (d2 :: rest)

/-- One step of the indexer's running maximum of stripped line lengths. -/
def maxExcStep (m : Nat) (d : List Char) : Nat := max m d.length

/-- One step of the indexer's running maximum of raw line lengths.  With
the single-`'\n'` builder above a raw line is one byte longer than its
content. -/
def maxIncStep (m : Nat) (d : List Char) : Nat := max m (d.length + 1)

/-- Reference computation of the index that `index_fasta` produces on
`fileLines rs`, threading the byte offset and the two geometry maxima
(which the source never resets between records). -/
def entriesFrom : List FaRecord → Nat → Nat → Nat → List FaiEntry
  | [], _, _, _ => []
  | r :: rest, off, ce, ci =>
    ⟨r.1, (r.2.map List.length).sum, off + (r.1.length + 2),
      r.2.foldl maxExcStep ce, r.2.foldl maxIncStep ci⟩ ::
    entriesFrom rest (off + (r.1.length + 2) + (r.2.map (fun d => d.length + 1)).sum)
      (r.2.foldl maxExcStep ce) (r.2.foldl maxIncStep ci)

/-- Maximum stripped data-line length over records `0..i` of the file. -/
def geomExc (rs : List FaRecord) (i : Nat) : Nat :=
  (((rs.take (i + 1)).map (fun r => r.2)).flatten).foldl maxExcStep 0

/-- Maximum raw data-line length over records `0..i` of the file. -/
def geomInc (rs : List FaRecord) (i : Nat) : Nat :=
  (((rs.take (i + 1)).map (fun r => r.2)).flatten).foldl maxIncStep 0

/-! ## Claim C3: concrete reconciliation scenario -/

/-- C3: reconciling read `GGACGCTCAGTAGTGACGATAGCTGAAAACCCTGTACGATAAACC` with
CIGAR `12M2D17M2I14M` and MD:Z `12^AT30G0` yields exactly the claimed
read and reference tracks. -/
theorem scenario1_tracks :
    cigarToList "12M2D17M2I14M" = .ok [(0,12),(2,2),(0,17),(1,2),(0,14)] ∧
    mdzToList "12^AT30G0" =
      .ok [(0,12,[]),(2,2,['A','T']),(0,30,[]),(1,1,['G'])] ∧
    (cigarMdzToStacked "GGACGCTCAGTAGTGACGATAGCTGAAAACCCTGTACGATAAACC".toList
        [(0,12),(2,2),(0,17),(1,2),(0,14)]
        [(0,12,[]),(2,2,['A','T']),(0,30,[]),(1,1,['G'])]).map
        (fun t => (t.1, t.2.1)) =
      .ok ("GGACGCTCAGTA--GTGACGATAGCTGAAAACCCTGTACGATAAACC".toList,
           "GGACGCTCAGTAATGTGACGATAGCTGAAAA--CTGTACGATAAACG".toList) := by
  exact ⟨by decide, by decide, by decide⟩

/-! ## Claim C4: the caller's parsed MD:Z list is mutated by a run split -/

/-- C4: running the reconciler on read `AAAA`, CIGAR `1M1I2M`, MD:Z `3`
succeeds, and the caller's parsed MD:Z list ends up as `[(0, 2, "")]` —
the match run was shrunk in place through the shallow copy — which
differs from the original `[(0, 3, "")]`. -/
theorem mdz_alias_mutation :
    cigarToList "1M1I2M" = .ok [(0,1),(1,1),(0,2)] ∧
    mdzToList "3" = .ok [(0,3,[])] ∧
    cigarMdzToStacked "AAAA".toList [(0,1),(1,1),(0,2)] [(0,3,[])] =
      .ok ("AAAA".toList, "A-AA".toList, [(0,2,[])]) ∧
    [((0:Nat), (2:Nat), ([] : List Char))] ≠ [(0, 3, [])] := by
  exact ⟨by decide, by decide, by decide, by decide⟩

/-! ## Claim C5: the CIGAR decoder on the empty string -/

/-- C5 counterexample: the CIGAR decoder does not fail on the empty
string (neither of the two failure kinds occurs). -/
theorem cigar_empty_no_error :
    cigarToList "" ≠ .error .assertFail ∧
    cigarToList "" ≠ .error .runtimeErr := by
  exact ⟨by decide, by decide⟩

/-- C5 amended: the CIGAR decoder applied to the empty string returns the
empty operation list. -/
theorem cigar_empty_returns_nil : cigarToList "" = .ok [] := by decide

/-! ## Claim C6: the indexer on a file with no header line -/

/-- If no line is empty and no line starts with the record marker, the
indexer's loop leaves an empty open-record state untouched. -/
theorem index_go_no_header (lines : List (List Char)) :
    ∀ st : IdxSt, (∀ ln ∈ lines, ln ≠ [] ∧ ln.head? ≠ some '>') →
      st.current = none → st.index = [] → index_go lines st = .ok [] := by
  induction lines with
  | nil =>
    intro st _ hc hi
    simp [index_go, idxFlush, hc, hi]
  | cons ln rest ih =>
    intro st h hc hi
    obtain ⟨hne, hhd⟩ := h ln (by simp)
    match ln, hne with
    | c :: tl, _ =>
      have hcgt : ¬ c = '>' := by simpa using hhd
      simp only [index_go, idxStep, hcgt, if_false]
      exact ih _ (fun l hl => h l (by simp [hl])) hc hi

/-- C6 counterexample: a file consisting of a single data line makes the
indexer return the empty index, not a failure. -/
theorem no_header_example : index_fasta [['A', '\n']] = .ok [] := by decide

/-- C6 amended: on any input with no header line at all (every line
nonempty and not starting with the marker) the indexer succeeds with the
empty index list. -/
theorem no_header_empty_index (lines : List (List Char))
    (h : ∀ ln ∈ lines, ln ≠ [] ∧ ln.head? ≠ some '>') :
    index_fasta lines = .ok [] :=
  index_go_no_header lines _ h rfl rfl

/-- C6 amended, witness at a concrete two-line input. -/
theorem no_header_empty_index_w :
    index_fasta [['C','G','\n'], ['T','\n']] = .ok [] :=
  no_header_empty_index [['C','G','\n'], ['T','\n']] (by decide)

/-! ## Claim C7: out-of-range requests fail before any file operation -/

/-- C7: whenever `start + length` exceeds the record's total length, the
reader fails with the out-of-bounds error and performs no seek and no
read (empty event trace). -/
theorem get_oob_fails (fa : List Char) (offset lens C B start ln : Nat)
    (h : lens < start + ln) :
    FastaIndexed.get fa offset lens C B start ln =
      (.error .rangeOutOfBounds, []) := by
  simp [FastaIndexed.get, h]

/-- C7 witness: a length-5 record, request `[3, 6)` (`start + length =
totalLength + 1`). -/
theorem get_oob_fails_w :
    FastaIndexed.get ['A','C','G','T','A','\n'] 0 5 70 71 3 3 =
      (.error .rangeOutOfBounds, []) :=
  get_oob_fails ['A','C','G','T','A','\n'] 0 5 70 71 3 3 (by decide)

/-! ## Claim C8: the verbatim short-read path -/

/-- C8 counterexample: with `MaxCharsPerLine − start mod MaxCharsPerLine`
exactly equal to the requested length (here 2), the reader takes the
multi-line path: it reads 3 bytes, not 2, and strips whitespace. -/
theorem get_short_path_equality_cex :
    2 - 0 % 2 ≥ 2 ∧
    FastaIndexed.get "AB\nCD\n".toList 0 4 2 3 0 2 =
      (.ok ['A','B'], [.seek 0, .read 3]) := by
  exact ⟨by decide, by decide⟩

/-- C8 amended: whenever the request is in bounds and the requested
length fits *strictly* within the remainder of the current line
(`MaxCharsPerLine − start mod MaxCharsPerLine > length`), the reader
seeks to the computed offset, reads exactly `length` bytes, and returns
them verbatim. -/
theorem get_short_path (fa : List Char) (offset lens C B start ln : Nat)
    (hin : start + ln ≤ lens) (hfit : ln < C - start % C) :
    FastaIndexed.get fa offset lens C B start ln =
      (.ok ((fa.drop (offset + start / C * B + start % C)).take ln),
       [.seek (offset + start / C * B + start % C), .read ln]) := by
  simp [FastaIndexed.get, Nat.not_lt.mpr hin, hfit]

/-- C8 amended, witness: a request entirely inside the second line. -/
theorem get_short_path_w :
    2 + 1 ≤ 4 ∧ 1 < 2 - 2 % 2 ∧
    FastaIndexed.get "AB\nCD\n".toList 0 4 2 3 2 1 =
      (.ok ['C'], [.seek 3, .read 1]) :=
  ⟨by decide, by decide, by
    have h := get_short_path "AB\nCD\n".toList 0 4 2 3 2 1 (by decide) (by decide)
    simpa using h⟩

/-! ## Claim C10: non-clipping operation after MD:Z exhaustion -/

/-- C10: if the MD:Z cursor has consumed the whole list (`rem = []`) and
the next CIGAR operation is anything but a soft or hard clip, the
reconciler's walk fails (the source's `assert skipping or mdo < len(mdp)`). -/
theorem stackGo_md_exhausted (seq : List Char) (op run : Nat)
    (rest : List (Nat × Nat)) (st : MState)
    (hrem : st.rem = []) (h4 : op ≠ 4) (h5 : op ≠ 5) :
    stackGo seq ((op, run) :: rest) st = .error .assertFail := by
  simp [stackGo, hrem, h4, h5]

/-- C10 witness: a trailing insertion reached with the MD:Z list fully
consumed is rejected. -/
theorem stackGo_md_exhausted_w :
    stackGo ['A','C'] [(1, 2)] ⟨[(0,1,[])], [], 1, ['A'], ['A']⟩ =
      .error .assertFail :=
  stackGo_md_exhausted ['A','C'] 1 2 [] ⟨[(0,1,[])], [], 1, ['A'], ['A']⟩
    rfl (by decide) (by decide)

/-! ## Claim C2: track lengths versus CIGAR run lengths -/

theorem cigarTotal_cons (op run : Nat) (rest : List (Nat × Nat)) :
    cigarTotal ((op, run) :: rest) = run + cigarTotal rest := rfl

theorem readConsume_cons (op run : Nat) (rest : List (Nat × Nat)) :
    readConsume ((op, run) :: rest) =
      (if op = 0 ∨ op = 1 ∨ op = 4 then run else 0) + readConsume rest := rfl

theorem mTotal_cons (op run : Nat) (rest : List (Nat × Nat)) :
    mTotal ((op, run) :: rest) = (if op = 0 then run else 0) + mTotal rest := rfl

theorem mdzMM_cons (op_m run_m : Nat) (st_m : List Char) (rem2 : List MdzE) :
    mdzMM ((op_m, run_m, st_m) :: rem2) =
      (if op_m = 0 ∨ op_m = 1 then run_m else 0) + mdzMM rem2 := rfl

/-- The inner match/mismatch loop consumes some `k ≤ runleft` from the
MD:Z match+mismatch mass, advances the read cursor by `k`, appends `k`
characters to each track (provided the read sequence reaches that far —
Python slices silently truncate), and stops only when the CIGAR run or
the MD:Z list is exhausted. -/
theorem mLoop_ok (seq : List Char) :
    ∀ (rem : List MdzE) (runleft rdoff : Nat) (done : List MdzE)
      (rds rfs : List Char) (st2 : MState),
      mLoop seq runleft rdoff done rds rfs rem = .ok st2 →
      ∃ k, k ≤ runleft ∧ k ≤ mdzMM rem ∧ st2.rdoff = rdoff + k ∧
        mdzMM st2.rem = mdzMM rem - k ∧ (k = runleft ∨ mdzMM st2.rem = 0) ∧
        (rdoff + k ≤ seq.length →
          st2.rds.length = rds.length + k ∧ st2.rfs.length = rfs.length + k) := by
  intro rem
  induction rem with
  | nil =>
    intro runleft rdoff done rds rfs st2 h
    simp only [mLoop] at h
    injection h with h
    subst h
    exact ⟨0, by omega, by omega, by simp, by simp [mdzMM],
      Or.inr (by simp [mdzMM]), fun _ => ⟨by simp, by simp⟩⟩
  | cons e rem2 ih =>
    obtain ⟨op_m, run_m, st_m⟩ := e
    intro runleft rdoff done rds rfs st2 h
    simp only [mLoop] at h
    by_cases h0 : runleft = 0
    · rw [if_pos h0] at h
      injection h with h
      subst h
      exact ⟨0, by omega, by omega, by simp, by simp, Or.inl h0.symm,
        fun _ => ⟨by simp, by simp⟩⟩
    · rw [if_neg h0] at h
      by_cases hop : op_m = 0 ∨ op_m = 1
      · rw [if_pos hop] at h
        have hmm : mdzMM ((op_m, run_m, st_m) :: rem2) = run_m + mdzMM rem2 := by
          rw [mdzMM_cons, if_pos hop]
        by_cases hz : op_m = 0
        · rw [if_pos hz] at h
          by_cases hsp : min runleft run_m < run_m
          · rw [if_pos hsp] at h
            injection h with h
            subst h
            refine ⟨min runleft run_m, by omega, by rw [hmm]; omega, by simp, ?_, ?_, ?_⟩
            · simp only [MState.rem, mdzMM_cons, if_pos hop, hmm]; omega
            · exact Or.inl (by omega)
            · intro hsl
              refine ⟨?_, ?_⟩ <;>
                simp only [MState.rds, MState.rfs, List.length_append,
                  List.length_take, List.length_drop] <;> omega
          · rw [if_neg hsp] at h
            obtain ⟨k2, hk1, hk2, hk3, hk4, hk5, hk6⟩ := ih _ _ _ _ _ _ h
            refine ⟨min runleft run_m + k2, by omega, by rw [hmm]; omega,
              by rw [hk3]; omega, by rw [hk4, hmm]; omega, ?_, ?_⟩
            · rcases hk5 with h5 | h5
              · exact Or.inl (by omega)
              · exact Or.inr h5
            · intro hsl
              obtain ⟨hl1, hl2⟩ := hk6 (by omega)
              constructor
              · rw [hl1]
                simp only [List.length_append, List.length_take, List.length_drop]
                omega
              · rw [hl2]
                simp only [List.length_append, List.length_take, List.length_drop]
                omega
        · have hone : op_m = 1 := by omega
          rw [if_neg hz] at h
          by_cases hlen : st_m.length = min runleft run_m
          · rw [if_pos hlen] at h
            by_cases hsp : min runleft run_m < run_m
            · rw [if_pos hsp] at h; cases h
            · rw [if_neg hsp] at h
              obtain ⟨k2, hk1, hk2, hk3, hk4, hk5, hk6⟩ := ih _ _ _ _ _ _ h
              refine ⟨min runleft run_m + k2, by omega, by rw [hmm]; omega,
                by rw [hk3]; omega, by rw [hk4, hmm]; omega, ?_, ?_⟩
              · rcases hk5 with h5 | h5
                · exact Or.inl (by omega)
                · exact Or.inr h5
              · intro hsl
                obtain ⟨hl1, hl2⟩ := hk6 (by omega)
                constructor
                · rw [hl1]
                  simp only [List.length_append, List.length_take, List.length_drop]
                  omega
                · rw [hl2]
                  simp only [List.length_append, hlen]
                  omega
          · rw [if_neg hlen] at h; cases h
      · rw [if_neg hop] at h; cases h

/-- Walking the CIGAR list from a state whose remaining MD:Z
match+mismatch mass equals the remaining `MatchOrMismatch` run total, and
whose read cursor stays inside the read sequence, adds exactly the CIGAR
run total to each track. -/
theorem stackGo_ok (seq : List Char) :
    ∀ (cgp : List (Nat × Nat)) (st st2 : MState),
      stackGo seq cgp st = .ok st2 →
      st.rdoff + readConsume cgp ≤ seq.length →
      mdzMM st.rem = mTotal cgp →
      st2.rds.length = st.rds.length + cigarTotal cgp ∧
      st2.rfs.length = st.rfs.length + cigarTotal cgp ∧
      st2.rdoff = st.rdoff + readConsume cgp := by
  intro cgp
  induction cgp with
  | nil =>
    intro st st2 h h1 h2
    simp only [stackGo] at h
    by_cases hr : st.rem = []
    · rw [if_pos hr] at h
      injection h with h
      subst h
      simp [cigarTotal, readConsume]
    · rw [if_neg hr] at h; cases h
  | cons c rest ih =>
    obtain ⟨op, run⟩ := c
    intro st st2 h h1 h2
    obtain ⟨sdone, srem, srdoff, srds, srfs⟩ := st
    simp only [MState.rdoff, MState.rem, MState.rds, MState.rfs] at h1 h2 ⊢
    simp only [stackGo] at h
    rw [readConsume_cons] at h1 ⊢
    rw [mTotal_cons] at h2
    rw [cigarTotal_cons]
    by_cases hg : (op = 4 ∨ op = 5) ∨ srem ≠ []
    case neg => rw [if_neg hg] at h; cases h
    rw [if_pos hg] at h
    by_cases h0 : op = 0
    · rw [if_pos h0] at h
      rw [if_pos (by omega)] at h1 ⊢
      rw [if_pos h0] at h2
      cases hml : mLoop seq run srdoff sdone srds srfs srem with
      | error e => rw [hml] at h; cases h
      | ok stm =>
        rw [hml] at h
        obtain ⟨k, hk1, hk2, hk3, hk4, hk5, hk6⟩ := mLoop_ok seq _ _ _ _ _ _ _ hml
        have hkrun : k = run := by
          rcases hk5 with h5 | h5 <;> omega
        subst hkrun
        obtain ⟨hl1, hl2⟩ := hk6 (by omega)
        obtain ⟨ih1, ih2, ih3⟩ := ih stm st2 h (by omega) (by omega)
        exact ⟨by omega, by omega, by omega⟩
    · rw [if_neg h0] at h
      rw [if_neg h0, Nat.zero_add] at h2
      by_cases hI : op = 1
      · rw [if_pos hI] at h
        rw [if_pos (by omega)] at h1 ⊢
        obtain ⟨ih1, ih2, ih3⟩ := ih _ st2 h
          (by simp only [MState.rdoff]; omega)
          (by simp only [MState.rem]; omega)
        simp only [MState.rds, MState.rfs, MState.rdoff, List.length_append,
          List.length_take, List.length_drop, List.length_replicate] at ih1 ih2 ih3
        exact ⟨by omega, by omega, by omega⟩
      · rw [if_neg hI] at h
        by_cases hD : op = 2
        · rw [if_pos hD] at h
          rw [if_neg (by omega)] at h1 ⊢
          split at h
          · cases h
          · rename_i op_m run_m st_m rem2
            by_cases hcond : op_m = 2 ∧ run = run_m ∧ st_m.length = run
            case neg => rw [if_neg hcond] at h; cases h
            rw [if_pos hcond] at h
            have hmm2 : mdzMM ((op_m, run_m, st_m) :: rem2) = mdzMM rem2 := by
              rw [mdzMM_cons, if_neg (by omega)]; omega
            obtain ⟨ih1, ih2, ih3⟩ := ih _ st2 h
              (by simp only [MState.rdoff]; omega)
              (by simp only [MState.rem]; omega)
            simp only [MState.rds, MState.rfs, MState.rdoff, List.length_append,
              List.length_replicate] at ih1 ih2 ih3
            obtain ⟨hc1, hc2, hc3⟩ := hcond
            exact ⟨by omega, by omega, by omega⟩
        · rw [if_neg hD] at h
          by_cases hN : op = 3
          · rw [if_pos hN] at h
            rw [if_neg (by omega)] at h1 ⊢
            obtain ⟨ih1, ih2, ih3⟩ := ih _ st2 h
              (by simp only [MState.rdoff]; omega)
              (by simp only [MState.rem]; omega)
            simp only [MState.rds, MState.rfs, MState.rdoff, List.length_append,
              List.length_replicate] at ih1 ih2 ih3
            exact ⟨by omega, by omega, by omega⟩
          · rw [if_neg hN] at h
            by_cases hS : op = 4
            · rw [if_pos hS] at h
              rw [if_pos (by omega)] at h1 ⊢
              obtain ⟨ih1, ih2, ih3⟩ := ih _ st2 h
                (by simp only [MState.rdoff]; omega)
                (by simp only [MState.rem]; omega)
              simp only [MState.rds, MState.rfs, MState.rdoff, List.length_append,
                List.length_map, List.length_take, List.length_drop,
                List.length_replicate] at ih1 ih2 ih3
              exact ⟨by omega, by omega, by omega⟩
            · rw [if_neg hS] at h
              by_cases hH : op = 5
              · rw [if_pos hH] at h
                rw [if_neg (by omega)] at h1 ⊢
                obtain ⟨ih1, ih2, ih3⟩ := ih _ st2 h
                  (by simp only [MState.rdoff]; omega)
                  (by simp only [MState.rem]; omega)
                simp only [MState.rds, MState.rfs, MState.rdoff, List.length_append,
                  List.length_replicate] at ih1 ih2 ih3
                exact ⟨by omega, by omega, by omega⟩
              · rw [if_neg hH] at h; cases h

/-- C2 counterexample: on read `A`, CIGAR ops `2I 1M` and MD:Z `1`, the
reconciler succeeds with a read track of length 1 and a reference track
of length 2, while the CIGAR run lengths sum to 3. -/
theorem reconcile_track_lengths_cex :
    cigarMdzToStacked ['A'] [(1,2),(0,1)] [(0,1,[])] =
      .ok (['A'], ['-','-'], [(0,1,[])]) ∧
    cigarTotal [(1,2),(0,1)] = 3 ∧ ¬ (1 = 3) ∧ ¬ (2 = 3) := by
  exact ⟨by decide, by decide, by decide, by decide⟩

/-- C2 amended: whenever the reconciler succeeds, *and* the read sequence
covers all read-consuming runs (`M`/`I`/`S`), *and* the MD:Z
match+mismatch mass equals the total `MatchOrMismatch` run length, both
tracks have length equal to the sum of all CIGAR run lengths. -/
theorem reconcile_track_lengths (seq : List Char) (cgp : List (Nat × Nat))
    (mdp : List MdzE) (rds rfs : List Char) (mdp2 : List MdzE)
    (h : cigarMdzToStacked seq cgp mdp = .ok (rds, rfs, mdp2))
    (hseq : readConsume cgp ≤ seq.length)
    (hmd : mdzMM mdp = mTotal cgp) :
    rds.length = cigarTotal cgp ∧ rfs.length = cigarTotal cgp := by
  unfold cigarMdzToStacked at h
  cases hs : stackGo seq cgp ⟨[], mdp, 0, [], []⟩ with
  | error e => rw [hs] at h; cases h
  | ok st =>
    rw [hs] at h
    obtain ⟨h1, h2, _⟩ := stackGo_ok seq cgp _ st hs (by simpa using hseq)
      (by simpa using hmd)
    injection h with h
    have hr : st.rds = rds := congrArg Prod.fst h
    have hf : st.rfs = rfs := congrArg (fun p => p.2.1) h
    rw [hr] at h1
    rw [hf] at h2
    simp only [MState.rds, MState.rfs, List.length_nil] at h1 h2
    exact ⟨by omega, by omega⟩

/-- C2 amended, witness: read `ACGT`, CIGAR `2M1I1M`, MD:Z `3` (a match
run split across the insertion). -/
theorem reconcile_track_lengths_w :
    cigarMdzToStacked "ACGT".toList [(0,2),(1,1),(0,1)] [(0,3,[])] =
      .ok ("ACGT".toList, "AC-T".toList, [(0,1,[])]) ∧
    readConsume [(0,2),(1,1),(0,1)] ≤ ("ACGT".toList).length ∧
    mdzMM [(0,3,[])] = mTotal [(0,2),(1,1),(0,1)] ∧
    ("ACGT".toList).length = cigarTotal [(0,2),(1,1),(0,1)] ∧
    ("AC-T".toList).length = cigarTotal [(0,2),(1,1),(0,1)] := by
  refine ⟨by decide, by decide, by decide, ?_, ?_⟩
  · exact (reconcile_track_lengths "ACGT".toList [(0,2),(1,1),(0,1)] [(0,3,[])]
      "ACGT".toList "AC-T".toList [(0,1,[])] (by decide) (by decide) (by decide)).1
  · exact (reconcile_track_lengths "ACGT".toList [(0,2),(1,1),(0,1)] [(0,3,[])]
      "ACGT".toList "AC-T".toList [(0,1,[])] (by decide) (by decide) (by decide)).2

/-! ## Characterizing the indexer on structured files -/

theorem takeWhile_no_space (l : List Char) (h : ∀ c ∈ l, isSpacePy c = false) :
    l.takeWhile (fun c => !isSpacePy c) = l := by
  induction l with
  | nil => rfl
  | cons c t ih =>
    rw [List.takeWhile_cons, if_pos (by simp [h c (by simp)])]
    rw [ih (fun x hx => h x (by simp [hx]))]

theorem dropWhile_no_space_head (l : List Char) (h : ∀ c ∈ l, isSpacePy c = false) :
    l.dropWhile isSpacePy = l := by
  cases l with
  | nil => rfl
  | cons c t => rw [List.dropWhile_cons, if_neg (by simp [h c (by simp)])]

theorem firstTok_self (nm : List Char) (h : ∀ c ∈ nm, isSpacePy c = false) :
    firstTok nm = nm := by
  unfold firstTok
  rw [dropWhile_no_space_head nm h, takeWhile_no_space nm h]

theorem rstrip_line (d : List Char) (h : ∀ c ∈ d, isSpacePy c = false) :
    rstrip (d ++ ['\n']) = d := by
  unfold rstrip
  rw [List.reverse_append]
  simp only [List.reverse_cons, List.reverse_nil, List.nil_append,
    List.singleton_append]
  rw [List.dropWhile_cons, if_pos (by decide)]
  have hrev : d.reverse.dropWhile isSpacePy = d.reverse :=
    dropWhile_no_space_head d.reverse (fun c hc => h c (List.mem_reverse.mp hc))
  rw [hrev, List.reverse_reverse]

theorem idxStep_header (st : IdxSt) (nm : List Char) (h1 : nm ≠ [])
    (h2 : ∀ c ∈ nm, isSpacePy c = false) :
    idxStep st (headerLine nm) =
      .ok ⟨idxFlush st, some nm, st.runByteOff + (nm.length + 2), 0,
        st.runByteOff + (nm.length + 2), st.lineExc, st.lineInc⟩ := by
  have hstrip : rstrip (headerLine nm) = '>' :: nm := by
    have : headerLine nm = ('>' :: nm) ++ ['\n'] := by simp [headerLine]
    rw [this, rstrip_line ('>' :: nm) ?hmem]
    case hmem =>
      intro c hc
      rcases List.mem_cons.mp hc with h | h
      · subst h; decide
      · exact h2 c h
  simp only [headerLine, idxStep]
  rw [show ('>' :: (nm ++ ['\n']) : List Char) = headerLine nm from rfl, hstrip]
  simp only [List.drop_succ_cons, List.drop_zero]
  rw [firstTok_self nm h2]
  simp only [if_true]
  rw [if_neg h1]
  have hlen : (headerLine nm).length = nm.length + 2 := by
    simp only [headerLine, List.length_cons, List.length_append,
      List.length_cons, List.length_nil]
  rw [hlen]

theorem idxStep_data (st : IdxSt) (d : List Char) (hne : d ≠ [])
    (hnw : ∀ c ∈ d, isSpacePy c = false) (hhd : d.head? ≠ some '>') :
    idxStep st (dataLine d) =
      .ok ⟨st.index, st.current, st.curOff, st.runSeqLen + d.length,
        st.runByteOff + (d.length + 1), max st.lineExc d.length,
        max st.lineInc (d.length + 1)⟩ := by
  obtain ⟨c, t, rfl⟩ : ∃ c t, d = c :: t := by
    cases d with
    | nil => exact absurd rfl hne
    | cons c t => exact ⟨c, t, rfl⟩
  have hc : ¬ c = '>' := by simpa using hhd
  have hstrip : rstrip (dataLine (c :: t)) = c :: t := rstrip_line (c :: t) hnw
  simp only [dataLine, List.cons_append, idxStep]
  rw [show (c :: (t ++ ['\n']) : List Char) = dataLine (c :: t) from rfl, hstrip]
  rw [if_neg hc]
  have hlen : (dataLine (c :: t)).length = (c :: t).length + 1 := by
    simp [dataLine]
  rw [hlen]

/-- The indexer state after fully processing one record's lines. -/
def afterRec (st : IdxSt) (r : FaRecord) : IdxSt :=
  ⟨idxFlush st, some r.1, st.runByteOff + (r.1.length + 2),
    (r.2.map List.length).sum,
    st.runByteOff + (r.1.length + 2) + (r.2.map (fun d => d.length + 1)).sum,
    r.2.foldl maxExcStep st.lineExc, r.2.foldl maxIncStep st.lineInc⟩

theorem index_go_datalines (ds : List (List Char)) :
    ∀ (st : IdxSt) (more : List (List Char)),
      (∀ d ∈ ds, goodData d) →
      index_go (ds.map dataLine ++ more) st =
        index_go more ⟨st.index, st.current, st.curOff,
          st.runSeqLen + (ds.map List.length).sum,
          st.runByteOff + (ds.map (fun d => d.length + 1)).sum,
          ds.foldl maxExcStep st.lineExc, ds.foldl maxIncStep st.lineInc⟩ := by
  induction ds with
  | nil =>
    intro st more _
    simp
  | cons d ds ih =>
    intro st more h
    obtain ⟨hne, hnw, hhd⟩ := h d (by simp)
    rw [List.map_cons, List.cons_append]
    simp only [index_go]
    rw [idxStep_data st d hne hnw hhd]
    dsimp only
    rw [ih _ more (fun x hx => h x (by simp [hx]))]
    congr 1
    rw [IdxSt.mk.injEq]
    refine ⟨rfl, rfl, rfl, ?_, ?_, rfl, rfl⟩
    · simp only [List.map_cons, List.sum_cons]; omega
    · simp only [List.map_cons, List.sum_cons]; omega

theorem index_go_record (r : FaRecord) (st : IdxSt) (more : List (List Char))
    (hgood : goodRec r) :
    index_go (recordLines r ++ more) st = index_go more (afterRec st r) := by
  obtain ⟨⟨hn1, hn2⟩, hds⟩ := hgood
  rw [recordLines, List.cons_append]
  simp only [index_go]
  rw [idxStep_header st r.1 hn1 hn2]
  dsimp only
  rw [index_go_datalines r.2 _ more hds]
  congr 1
  rw [afterRec, IdxSt.mk.injEq]
  exact ⟨rfl, rfl, rfl, by simp, rfl, rfl, rfl⟩

theorem index_go_file (rs : List FaRecord) :
    ∀ st : IdxSt, (∀ r ∈ rs, goodRec r) →
      index_go (fileLines rs) st = .ok (idxFlush (rs.foldl afterRec st)) := by
  induction rs with
  | nil => intro st _; rfl
  | cons r rest ih =>
    intro st h
    have : fileLines (r :: rest) = recordLines r ++ fileLines rest := by
      simp [fileLines]
    rw [this, index_go_record r st _ (h r (by simp)), List.foldl_cons]
    exact ih _ (fun x hx => h x (by simp [hx]))

theorem idxFlush_fold (rs : List FaRecord) :
    ∀ st : IdxSt,
      idxFlush (rs.foldl afterRec st) =
        idxFlush st ++ entriesFrom rs st.runByteOff st.lineExc st.lineInc := by
  induction rs with
  | nil => intro st; simp [entriesFrom]
  | cons r rest ih =>
    intro st
    rw [List.foldl_cons, ih (afterRec st r)]
    have hflush : idxFlush (afterRec st r) =
        idxFlush st ++ [⟨r.1, (r.2.map List.length).sum,
          st.runByteOff + (r.1.length + 2),
          r.2.foldl maxExcStep st.lineExc, r.2.foldl maxIncStep st.lineInc⟩] := by
      simp [idxFlush, afterRec]
    rw [hflush]
    simp only [entriesFrom, afterRec, List.append_assoc, List.singleton_append]

/-- On a structured file of usable records, `index_fasta` returns exactly
the reference entry list (name, sequence length, data-start offset, and
the two running geometry maxima). -/
theorem index_fasta_entries (rs : List FaRecord) (h : ∀ r ∈ rs, goodRec r) :
    index_fasta (fileLines rs) = .ok (entriesFrom rs 0 0 0) := by
  unfold index_fasta
  rw [index_go_file rs _ h, idxFlush_fold]
  rfl

/-! ## Claim C9: line geometry is a file-wide running maximum -/

theorem entriesFrom_geom (rs : List FaRecord) :
    ∀ (i : Nat) (off ce ci : Nat) (e : FaiEntry),
      (entriesFrom rs off ce ci).get? i = some e →
      e.charsPerLine =
        (((rs.take (i + 1)).map (fun r => r.2)).flatten).foldl maxExcStep ce ∧
      e.bytesPerLine =
        (((rs.take (i + 1)).map (fun r => r.2)).flatten).foldl maxIncStep ci := by
  induction rs with
  | nil => intro i off ce ci e h; simp [entriesFrom] at h
  | cons r rest ih =>
    intro i off ce ci e h
    cases i with
    | zero =>
      simp only [entriesFrom, List.get?_cons_zero, Option.some.injEq] at h
      subst h
      simp
    | succ i =>
      simp only [entriesFrom, List.get?_cons_succ] at h
      obtain ⟨hc, hb⟩ := ih i _ _ _ e h
      constructor
      · rw [hc]
        simp [List.foldl_append]
      · rw [hb]
        simp [List.foldl_append]

/-- C9: for every multi-record structured file, each record's index entry
carries, as its line geometry, the running maxima over the data lines of
that record *and all earlier records* — the indexer never resets
`line_length_excluding_ws` / `line_length_including_ws` at a record
boundary. -/
theorem index_geometry_running_max (rs : List FaRecord) (idx : List FaiEntry)
    (i : Nat) (e : FaiEntry)
    (hgood : ∀ r ∈ rs, goodRec r)
    (hidx : index_fasta (fileLines rs) = .ok idx)
    (hget : idx.get? i = some e) :
    e.charsPerLine = geomExc rs i ∧ e.bytesPerLine = geomInc rs i := by
  rw [index_fasta_entries rs hgood] at hidx
  injection hidx with hidx
  subst hidx
  exact entriesFrom_geom rs i 0 0 0 e hget

/-- C9 witness: two records, the first with lines of width 2, the second
a single line of width 1; the second record's entry still reports width 2
(and 3 bytes), the file-wide running maximum. -/
theorem index_geometry_running_max_w :
    index_fasta (fileLines [(['a'], [['A','C'],['G']]), (['b'], [['T']])]) =
      .ok [⟨['a'], 3, 3, 2, 3⟩, ⟨['b'], 1, 11, 2, 3⟩] ∧
    (⟨['b'], 1, 11, 2, 3⟩ : FaiEntry).charsPerLine =
      geomExc [(['a'], [['A','C'],['G']]), (['b'], [['T']])] 1 ∧
    (⟨['b'], 1, 11, 2, 3⟩ : FaiEntry).bytesPerLine =
      geomInc [(['a'], [['A','C'],['G']]), (['b'], [['T']])] 1 := by
  refine ⟨by decide, ?_, ?_⟩
  · exact (index_geometry_running_max [(['a'], [['A','C'],['G']]), (['b'], [['T']])]
      [⟨['a'], 3, 3, 2, 3⟩, ⟨['b'], 1, 11, 2, 3⟩] 1 ⟨['b'], 1, 11, 2, 3⟩
      (by decide) (by decide) (by decide)).1
  · exact (index_geometry_running_max [(['a'], [['A','C'],['G']]), (['b'], [['T']])]
      [⟨['a'], 3, 3, 2, 3⟩, ⟨['b'], 1, 11, 2, 3⟩] 1 ⟨['b'], 1, 11, 2, 3⟩
      (by decide) (by decide) (by decide)).2

/-! ## Claim C1: reading wrapped records through the index

Groundwork: facts about whitespace stripping, wrapped line lists, and the
byte layout `d₀ ++ '\n' :: d₁ ++ '\n' :: ⋯` of a record's data region. -/

theorem stripWs_no_space (l : List Char) (h : ∀ c ∈ l, isSpacePy c = false) :
    stripWs l = l :=
  List.filter_eq_self.mpr (fun c hc => by simp [h c hc])

theorem stripWs_newline_cons (l : List Char) :
    stripWs ('\n' :: l) = stripWs l := by
  rw [stripWs, stripWs, List.filter_cons, if_neg (by decide)]

theorem length_dataLine (d : List Char) : (dataLine d).length = d.length + 1 := by
  simp [dataLine]

theorem region_cons (d : List Char) (ds : List (List Char)) :
    ((d :: ds).map dataLine).flatten = d ++ ('\n' :: (ds.map dataLine).flatten) := by
  simp [dataLine]

theorem wrapped_ne_nil {C : Nat} {ds : List (List Char)} (h : wrapped C ds) :
    ds ≠ [] := by
  cases ds with
  | nil => cases h
  | cons d t => simp

theorem wrapped_cons_tail {C : Nat} {d d2 : List Char} {t : List (List Char)}
    (h : wrapped C (d :: d2 :: t)) : d.length = C ∧ wrapped C (d2 :: t) := h

theorem wrapped_single {C : Nat} {d : List Char} (h : wrapped C [d]) :
    1 ≤ d.length ∧ d.length ≤ C := h

theorem wrapped_le {C : Nat} {ds : List (List Char)} (h : wrapped C ds) :
    ∀ d ∈ ds, d.length ≤ C := by
  induction ds with
  | nil => cases h
  | cons d t ih =>
    intro x hx
    cases t with
    | nil =>
      rcases List.mem_singleton.mp hx with rfl
      exact (wrapped_single h).2
    | cons d2 t2 =>
      obtain ⟨hd, ht⟩ := wrapped_cons_tail h
      rcases List.mem_cons.mp hx with rfl | hx2
      · omega
      · exact ih ht x hx2

theorem wrapped_retarget {W C : Nat} {ds : List (List Char)}
    (h : wrapped W ds) (hCW : C ≤ W) (hup : ∀ d ∈ ds, d.length ≤ C) :
    wrapped C ds := by
  cases ds with
  | nil => cases h
  | cons d t =>
    cases t with
    | nil =>
      exact ⟨(wrapped_single h).1, hup d (by simp)⟩
    | cons d2 t2 =>
      obtain ⟨hd, _⟩ := wrapped_cons_tail h
      have : C = W := le_antisymm hCW (hd ▸ hup d (by simp))
      subst this
      exact h

theorem foldl_maxExc_init (ds : List (List Char)) :
    ∀ a : Nat, a ≤ ds.foldl maxExcStep a := by
  induction ds with
  | nil => intro a; exact le_rfl
  | cons d t ih =>
    intro a
    calc a ≤ max a d.length := le_max_left _ _
    _ ≤ t.foldl maxExcStep (max a d.length) := ih _
    _ = (d :: t).foldl maxExcStep a := rfl

theorem foldl_maxExc_elem (ds : List (List Char)) :
    ∀ (a : Nat) (d : List Char), d ∈ ds → d.length ≤ ds.foldl maxExcStep a := by
  induction ds with
  | nil => intro a d h; cases h
  | cons d0 t ih =>
    intro a d h
    rcases List.mem_cons.mp h with rfl | h2
    · calc d.length ≤ max a d.length := le_max_right _ _
      _ ≤ t.foldl maxExcStep (max a d.length) := foldl_maxExc_init t _
      _ = (d :: t).foldl maxExcStep a := rfl
    · exact ih _ d h2

theorem foldl_maxExc_le (ds : List (List Char)) :
    ∀ (a W : Nat), a ≤ W → (∀ d ∈ ds, d.length ≤ W) →
      ds.foldl maxExcStep a ≤ W := by
  induction ds with
  | nil => intro a W ha _; exact ha
  | cons d t ih =>
    intro a W ha hd
    exact ih _ W (max_le ha (hd d (by simp))) (fun x hx => hd x (by simp [hx]))

theorem foldl_maxInc_succ (ds : List (List Char)) :
    ∀ a : Nat, ds.foldl maxIncStep (a + 1) = ds.foldl maxExcStep a + 1 := by
  induction ds with
  | nil => intro a; rfl
  | cons d t ih =>
    intro a
    show t.foldl maxIncStep (max (a + 1) (d.length + 1)) = _
    rw [Nat.succ_max_succ, ih]
    rfl

theorem foldl_maxInc_eq (ds : List (List Char)) (a b : Nat)
    (hne : ds ≠ []) (hinv : b = a + 1 ∨ (a = 0 ∧ b = 0)) :
    ds.foldl maxIncStep b = ds.foldl maxExcStep a + 1 := by
  rcases hinv with h | ⟨ha, hb⟩
  · rw [h, foldl_maxInc_succ]
  · subst ha; subst hb
    cases ds with
    | nil => exact absurd rfl hne
    | cons d t =>
      have h1 : (d :: t).foldl maxIncStep 0 = t.foldl maxIncStep (d.length + 1) := by
        show t.foldl maxIncStep (max 0 (d.length + 1)) = _
        rw [Nat.zero_max]
      have h2 : (d :: t).foldl maxExcStep 0 = t.foldl maxExcStep d.length := by
        show t.foldl maxExcStep (max 0 d.length) = _
        rw [Nat.zero_max]
      rw [h1, h2, foldl_maxInc_succ]

/-- Stripping the whitespace out of the first `n + n / C` bytes of a
record's data region (wrapped at width `C`) yields exactly the first `n`
sequence characters. -/
theorem stripTake (C : Nat) (hC : 1 ≤ C) :
    ∀ (ds : List (List Char)) (n : Nat) (rest : List Char),
      (ds = [] ∨ wrapped C ds) →
      (∀ d ∈ ds, ∀ c ∈ d, isSpacePy c = false) →
      n ≤ (ds.flatten).length →
      stripWs (((ds.map dataLine).flatten ++ rest).take (n + n / C)) =
        (ds.flatten).take n := by
  intro ds
  induction ds with
  | nil =>
    intro n rest _ _ hn
    simp only [List.flatten_nil, List.length_nil, Nat.le_zero] at hn
    subst hn
    simp [stripWs]
  | cons d ds ih =>
    intro n rest hw hnw hn
    have hwr : wrapped C (d :: ds) := by
      rcases hw with h | h
      · exact absurd h (by simp)
      · exact h
    have hdn : ∀ c ∈ d, isSpacePy c = false := hnw d (by simp)
    rw [region_cons, List.flatten_cons] at *
    by_cases hnC : n < C
    · have hdiv : n / C = 0 := Nat.div_eq_of_lt hnC
      have hnd : n ≤ d.length := by
        cases ds with
        | nil =>
          simp only [List.flatten_nil, List.append_nil] at hn
          exact hn
        | cons d2 t2 =>
          have := (wrapped_cons_tail hwr).1
          omega
      rw [hdiv, Nat.add_zero, List.append_assoc,
        List.take_append_of_le_length hnd,
        List.take_append_of_le_length hnd]
      exact stripWs_no_space _ (fun c hc => hdn c (List.take_subset n d hc))
    · have hd : d.length = C := by
        cases ds with
        | nil =>
          obtain ⟨h1, h2⟩ := wrapped_single hwr
          simp only [List.flatten_nil, List.append_nil] at hn
          omega
        | cons d2 t2 => exact (wrapped_cons_tail hwr).1
      have hm : n = C + (n - C) := by omega
      set m := n - C with hmdef
      have harith : n + n / C = (C + 1) + (m + m / C) := by
        rw [hm, Nat.add_comm C m, Nat.add_div_right m hC]
        omega
      rw [harith]
      have hsplit : (d ++ ('\n' :: (ds.map dataLine).flatten)) ++ rest =
          (d ++ ['\n']) ++ ((ds.map dataLine).flatten ++ rest) := by
        simp
      rw [hsplit]
      have hlength : (d ++ ['\n']).length = C + 1 := by simp [hd]
      rw [show (C + 1) + (m + m / C) = (d ++ ['\n']).length + (m + m / C) from by
        rw [hlength]]
      rw [List.take_append]
      rw [stripWs, List.filter_append, ← stripWs, ← stripWs]
      rw [show stripWs (d ++ ['\n']) = d from by
        rw [stripWs, List.filter_append, ← stripWs, ← stripWs,
          stripWs_no_space d hdn, show stripWs ['\n'] = [] from by decide]
        simp]
      have hmds : m ≤ (ds.flatten).length := by
        have : n ≤ d.length + (ds.flatten).length := by
          simpa using hn
        omega
      have hwds : ds = [] ∨ wrapped C ds := by
        cases ds with
        | nil => exact Or.inl rfl
        | cons d2 t2 => exact Or.inr (wrapped_cons_tail hwr).2
      rw [ih m rest hwds (fun x hx => hnw x (by simp [hx])) hmds,
        show n = d.length + m from by omega, List.take_append]

/-- A zero-length in-bounds request returns the empty string (it always
takes the short verbatim branch, since the line remainder is positive). -/
theorem get_zero_len (fa : List Char) (offset lens C B start : Nat)
    (hC : 1 ≤ C) (hin : start ≤ lens) :
    (FastaIndexed.get fa offset lens C B start 0).1 = .ok [] := by
  have hmod : start % C < C := Nat.mod_lt _ (by omega)
  simp only [FastaIndexed.get]
  rw [if_neg (by omega), if_pos (by omega)]
  simp

/-- Advancing the seek base by one full line: reading at `start ≥ C` from
`offset` is reading at `start − C` from `offset + B`. -/
theorem get_shift (fa : List Char) (offset lens C B start ln : Nat)
    (hC : 1 ≤ C) (hstart : C ≤ start) (hin : start + ln ≤ lens) :
    FastaIndexed.get fa offset lens C B start ln =
      FastaIndexed.get fa (offset + B) lens C B (start - C) ln := by
  obtain ⟨s2, rfl⟩ : ∃ s2, start = C + s2 := ⟨start - C, by omega⟩
  simp only [FastaIndexed.get]
  rw [if_neg (show ¬ lens < C + s2 + ln from by omega),
    if_neg (show ¬ lens < C + s2 - C + ln from by omega)]
  have hsub : C + s2 - C = s2 := by omega
  have hdiv : (C + s2) / C = s2 / C + 1 := by
    rw [Nat.add_comm, Nat.add_div_right _ (by omega)]
  have hmod : (C + s2) % C = s2 % C := by
    rw [Nat.add_comm, Nat.add_mod_right]
  rw [hsub, hdiv, hmod]
  have hoff : offset + (s2 / C + 1) * B + s2 % C =
      offset + B + s2 / C * B + s2 % C := by ring
  rw [hoff]

/-- Core correctness of the offset computation: reading any in-bounds
`[start, start + ln)` range of a record whose data region starts at
`offset` in the file (and is wrapped at the entry's width `C`, with
`bytesPerLine = C + 1`) returns exactly that slice of the record's
whitespace-stripped sequence. -/
theorem get_core (C : Nat) (hC : 1 ≤ C) :
    ∀ (ds : List (List Char)) (start ln lens : Nat) (fa rest : List Char)
      (offset : Nat),
      wrapped C ds →
      (∀ d ∈ ds, ∀ c ∈ d, isSpacePy c = false) →
      fa.drop offset = (ds.map dataLine).flatten ++ rest →
      start + ln ≤ (ds.flatten).length →
      start + ln ≤ lens →
      (FastaIndexed.get fa offset lens C (C + 1) start ln).1 =
        .ok (((ds.flatten).drop start).take ln) := by
  intro ds
  induction ds with
  | nil => intro start ln lens fa rest offset hw; cases hw
  | cons d ds ih =>
    intro start ln lens fa rest offset hw hnw hfa hbound hlens
    have hdn : ∀ c ∈ d, isSpacePy c = false := hnw d (by simp)
    by_cases hln0 : ln = 0
    · subst hln0
      rw [get_zero_len fa offset lens C (C + 1) start hC (by omega)]
      simp
    by_cases hstart : C ≤ start
    · -- start lies beyond the first line: peel one line and recurse
      obtain ⟨s2, rfl⟩ : ∃ s2, start = C + s2 := ⟨start - C, by omega⟩
      have hds : ds ≠ [] := by
        cases ds with
        | nil =>
          obtain ⟨h1, h2⟩ := wrapped_single hw
          simp only [List.flatten_cons, List.flatten_nil, List.append_nil] at hbound
          omega
        | cons d2 t2 => simp
      have hd : d.length = C := by
        cases ds with
        | nil => exact absurd rfl hds
        | cons d2 t2 => exact (wrapped_cons_tail hw).1
      have hw2 : wrapped C ds := by
        cases ds with
        | nil => exact absurd rfl hds
        | cons d2 t2 => exact (wrapped_cons_tail hw).2
      have hfa2 : fa.drop (offset + (C + 1)) = (ds.map dataLine).flatten ++ rest := by
        rw [← List.drop_drop, hfa, region_cons]
        rw [show (d ++ ('\n' :: (ds.map dataLine).flatten)) ++ rest =
          (d ++ ['\n']) ++ ((ds.map dataLine).flatten ++ rest) from by simp]
        rw [show C + 1 = (d ++ ['\n']).length from by simp [hd]]
        exact List.drop_left _ _
      have hflat : ((d :: ds).flatten).drop (C + s2) = (ds.flatten).drop s2 := by
        rw [List.flatten_cons, show C + s2 = d.length + s2 from by omega,
          List.drop_append]
      rw [hflat, get_shift fa offset lens C (C + 1) (C + s2) ln hC hstart hlens]
      rw [show C + s2 - C = s2 from by omega]
      exact ih s2 ln lens fa rest (offset + (C + 1)) hw2
        (fun x hx => hnw x (by simp [hx])) hfa2
        (by simp only [List.flatten_cons, List.length_append] at hbound; omega)
        (by omega)
    · -- start is inside the first line
      push_neg at hstart
      have hstartd : start ≤ d.length := by
        cases ds with
        | nil =>
          simp only [List.flatten_cons, List.flatten_nil, List.append_nil] at hbound
          omega
        | cons d2 t2 =>
          have := (wrapped_cons_tail hw).1
          omega
      have hdiv0 : start / C = 0 := Nat.div_eq_of_lt hstart
      have hmod0 : start % C = start := Nat.mod_eq_of_lt hstart
      have hoff : offset + start / C * (C + 1) + start % C = offset + start := by
        rw [hdiv0, hmod0]; ring
      have hdropfa : fa.drop (offset + start) =
          d.drop start ++ ('\n' :: ((ds.map dataLine).flatten ++ rest)) := by
        rw [← List.drop_drop, hfa, region_cons]
        rw [show (d ++ ('\n' :: (ds.map dataLine).flatten)) ++ rest =
          d ++ ('\n' :: ((ds.map dataLine).flatten ++ rest)) from by simp]
        exact List.drop_append_of_le_length hstartd
      simp only [FastaIndexed.get]
      rw [if_neg (by omega), hoff]
      by_cases hfit : ln < C - start % C
      · rw [if_pos hfit, hdropfa]
        rw [hmod0] at hfit
        have hlnd : ln ≤ (d.drop start).length := by
          simp only [List.length_drop]
          cases ds with
          | nil =>
            simp only [List.flatten_cons, List.flatten_nil, List.append_nil] at hbound
            omega
          | cons d2 t2 =>
            have := (wrapped_cons_tail hw).1
            omega
        rw [List.take_append_of_le_length hlnd]
        rw [List.flatten_cons, List.drop_append_of_le_length hstartd,
          List.take_append_of_le_length hlnd]
      · rw [if_neg hfit, hdropfa]
        rw [hmod0] at hfit ⊢
        push_neg at hfit
        have hd : d.length = C := by
          cases ds with
          | nil =>
            obtain ⟨h1, h2⟩ := wrapped_single hw
            simp only [List.flatten_cons, List.flatten_nil, List.append_nil] at hbound
            omega
          | cons d2 t2 => exact (wrapped_cons_tail hw).1
        have hcount : ln + (1 + (ln - (C - start)) / C) * ((C + 1) - C) =
            (d.drop start ++ ['\n']).length +
              ((ln - (C - start)) + (ln - (C - start)) / C) := by
          simp only [List.length_append, List.length_drop, List.length_cons,
            List.length_nil, hd]
          have h1 : (C + 1) - C = 1 := by omega
          rw [h1, Nat.mul_one]
          omega
        rw [hcount]
        rw [show d.drop start ++ ('\n' :: ((ds.map dataLine).flatten ++ rest)) =
          (d.drop start ++ ['\n']) ++ ((ds.map dataLine).flatten ++ rest) from by simp]
        rw [List.take_append]
        rw [stripWs, List.filter_append, ← stripWs, ← stripWs]
        rw [show stripWs (d.drop start ++ ['\n']) = d.drop start from by
          rw [stripWs, List.filter_append, ← stripWs, ← stripWs,
            stripWs_no_space (d.drop start)
              (fun c hc => hdn c (List.drop_subset start d hc)),
            show stripWs ['\n'] = [] from by decide]
          simp]
        have hwds : ds = [] ∨ wrapped C ds := by
          cases ds with
          | nil => exact Or.inl rfl
          | cons d2 t2 => exact Or.inr (wrapped_cons_tail hw).2
        have hnds : ln - (C - start) ≤ (ds.flatten).length := by
          simp only [List.flatten_cons, List.length_append] at hbound
          omega
        rw [stripTake C hC ds (ln - (C - start)) _ hwds
          (fun x hx => hnw x (by simp [hx])) hnds]
        rw [List.flatten_cons, List.drop_append_of_le_length hstartd,
          List.take_append_eq_append_take,
          List.take_of_length_le
            (show (d.drop start).length ≤ ln from by
              simp only [List.length_drop]; omega)]
        simp only [List.length_drop, hd]

theorem length_headerLine (nm : List Char) :
    (headerLine nm).length = nm.length + 2 := by
  simp only [headerLine, List.length_cons, List.length_append, List.length_nil]

theorem length_region (ds : List (List Char)) :
    ((ds.map dataLine).flatten).length = (ds.map (fun d => d.length + 1)).sum := by
  rw [List.length_flatten, List.map_map]
  congr 1
  simp [Function.comp, dataLine]

theorem fileChars_cons (r : FaRecord) (rest : List FaRecord) :
    fileChars (r :: rest) =
      headerLine r.1 ++ ((r.2.map dataLine).flatten ++ fileChars rest) := by
  simp [fileChars, fileLines, recordLines]

/-- Decomposition of each index entry over a well-formed structured file:
its length is the record's sequence length, its geometry satisfies
`bytesPerLine = charsPerLine + 1` with the record wrapped at
`charsPerLine`, and the file from `byteOff` on starts with the record's
data region. -/
theorem entriesFrom_spec (W : Nat) :
    ∀ (rs : List FaRecord) (i off ce ci : Nat) (e : FaiEntry) (r : FaRecord)
      (F tail : List Char),
      (∀ r2 ∈ rs, goodRec r2 ∧ wrapped W r2.2) →
      (ci = ce + 1 ∨ (ce = 0 ∧ ci = 0)) → ce ≤ W →
      F.drop off = fileChars rs ++ tail →
      (entriesFrom rs off ce ci).get? i = some e →
      rs.get? i = some r →
      e.seqLen = (recSeq r).length ∧
      e.bytesPerLine = e.charsPerLine + 1 ∧
      1 ≤ e.charsPerLine ∧
      wrapped e.charsPerLine r.2 ∧
      ∃ tail2, F.drop e.byteOff = (r.2.map dataLine).flatten ++ tail2 := by
  intro rs
  induction rs with
  | nil =>
    intro i off ce ci e r F tail _ _ _ _ hget _
    simp [entriesFrom] at hget
  | cons r0 rest ih =>
    intro i off ce ci e r F tail hgood hinv hce hF hget hr
    obtain ⟨hg0, hw0⟩ := hgood r0 (by simp)
    cases i with
    | zero =>
      simp only [entriesFrom, List.get?_cons_zero, Option.some.injEq] at hget hr
      subst hget
      subst hr
      have hne : r0.2 ≠ [] := wrapped_ne_nil hw0
      have hup : ∀ d ∈ r0.2, d.length ≤ r0.2.foldl maxExcStep ce :=
        fun d hd => foldl_maxExc_elem r0.2 ce d hd
      have hWle : r0.2.foldl maxExcStep ce ≤ W :=
        foldl_maxExc_le r0.2 ce W hce (wrapped_le hw0)
      refine ⟨?_, ?_, ?_, ?_, ?_⟩
      · show (r0.2.map List.length).sum = (recSeq r0).length
        rw [recSeq, List.length_flatten]
      · show r0.2.foldl maxIncStep ci = r0.2.foldl maxExcStep ce + 1
        exact foldl_maxInc_eq r0.2 ce ci hne hinv
      · show 1 ≤ r0.2.foldl maxExcStep ce
        obtain ⟨d0, t0, hds⟩ : ∃ d0 t0, r0.2 = d0 :: t0 := by
          cases hds : r0.2 with
          | nil => exact absurd hds hne
          | cons d0 t0 => exact ⟨d0, t0, rfl⟩
        have hd0 : d0 ≠ [] := (hg0.2 d0 (by simp [hds])).1
        have : 1 ≤ d0.length := by
          cases d0 with
          | nil => exact absurd rfl hd0
          | cons c cs => simp
        calc 1 ≤ d0.length := this
        _ ≤ r0.2.foldl maxExcStep ce := hup d0 (by simp [hds])
      · show wrapped (r0.2.foldl maxExcStep ce) r0.2
        exact wrapped_retarget hw0 hWle hup
      · show ∃ tail2, F.drop (off + (r0.1.length + 2)) =
          (r0.2.map dataLine).flatten ++ tail2
        refine ⟨fileChars rest ++ tail, ?_⟩
        rw [← List.drop_drop, hF, fileChars_cons]
        rw [show (headerLine r0.1 ++ ((r0.2.map dataLine).flatten ++ fileChars rest))
            ++ tail = headerLine r0.1 ++
            ((r0.2.map dataLine).flatten ++ (fileChars rest ++ tail)) from by simp]
        rw [show r0.1.length + 2 = (headerLine r0.1).length from
          (length_headerLine r0.1).symm]
        rw [List.drop_left]
    | succ i =>
      simp only [entriesFrom, List.get?_cons_succ] at hget hr
      have hne : r0.2 ≠ [] := wrapped_ne_nil hw0
      refine ih i _ _ _ e r F tail (fun x hx => hgood x (by simp [hx]))
        (Or.inl (foldl_maxInc_eq r0.2 ce ci hne hinv))
        (foldl_maxExc_le r0.2 ce W hce (wrapped_le hw0)) ?_ hget hr
      rw [show off + (r0.1.length + 2) + (r0.2.map (fun d => d.length + 1)).sum =
        off + ((r0.1.length + 2) + (r0.2.map (fun d => d.length + 1)).sum) from by
          omega]
      rw [← List.drop_drop, hF, fileChars_cons]
      rw [show (headerLine r0.1 ++ ((r0.2.map dataLine).flatten ++ fileChars rest))
          ++ tail = headerLine r0.1 ++
          ((r0.2.map dataLine).flatten ++ (fileChars rest ++ tail)) from by simp]
      rw [show (r0.1.length + 2) + (r0.2.map (fun d => d.length + 1)).sum =
        (headerLine r0.1).length + ((r0.2.map dataLine).flatten).length from by
          rw [length_headerLine, length_region]]
      rw [List.drop_append, List.drop_left]

/-- C1 counterexample: a two-record file in which each record is
internally uniform (record 1 wrapped at width 4, record 2 at width 2).
The index entry for record 2 carries the running maximum geometry
`(4, 5)`, so `get` on record 2 with `start = 1, length = 2` seeks into
record 2's layout with the wrong width and returns `"T\n"` — a raw line
terminator — instead of the substring `"TC"`. -/
theorem indexed_get_correct_cex :
    goodRec (['a'], [['A','B','C','D']]) ∧ wrapped 4 [['A','B','C','D']] ∧
    goodRec (['b'], [['G','T'],['C','A']]) ∧ wrapped 2 [['G','T'],['C','A']] ∧
    index_fasta (fileLines [(['a'], [['A','B','C','D']]),
        (['b'], [['G','T'],['C','A']])]) =
      .ok [⟨['a'], 4, 3, 4, 5⟩, ⟨['b'], 4, 11, 4, 5⟩] ∧
    (FastaIndexed.get (fileChars [(['a'], [['A','B','C','D']]),
        (['b'], [['G','T'],['C','A']])]) 11 4 4 5 1 2).1 = .ok ['T', '\n'] ∧
    ((recSeq (['b'], [['G','T'],['C','A']])).drop 1).take 2 = ['T', 'C'] ∧
    (['T', '\n'] : List Char) ≠ ['T', 'C'] := by
  refine ⟨by decide, by simp [wrapped], by decide, by simp [wrapped],
    by decide, by decide, by decide, by decide⟩

/-- C1 amended: over a well-formed structured file whose data lines all
share one file-wide width `W` (every record wrapped at `W`), the indexed
reader returns, for every in-bounds `(start, length)`, exactly the
substring `[start, start + length)` of the record's whitespace-stripped
sequence. -/
theorem indexed_get_correct (W : Nat) (rs : List FaRecord)
    (idx : List FaiEntry) (i : Nat) (e : FaiEntry) (r : FaRecord)
    (start ln : Nat)
    (hW : 1 ≤ W)
    (hgood : ∀ r2 ∈ rs, goodRec r2 ∧ wrapped W r2.2)
    (hidx : index_fasta (fileLines rs) = .ok idx)
    (hget : idx.get? i = some e) (hr : rs.get? i = some r)
    (hbound : start + ln ≤ e.seqLen) :
    (FastaIndexed.get (fileChars rs) e.byteOff e.seqLen e.charsPerLine
        e.bytesPerLine start ln).1 =
      .ok (((recSeq r).drop start).take ln) := by
  rw [index_fasta_entries rs (fun x hx => (hgood x hx).1)] at hidx
  injection hidx with hidx
  subst hidx
  obtain ⟨hlen, hbpl, hcpl, hwr, tail2, hdecomp⟩ :=
    entriesFrom_spec W rs i 0 0 0 e r (fileChars rs) [] hgood
      (Or.inr ⟨rfl, rfl⟩) (by omega) (by simp) hget hr
  have hmem : r ∈ rs := List.get?_mem hr
  rw [hbpl]
  have hnw : ∀ d ∈ r.2, ∀ c ∈ d, isSpacePy c = false :=
    fun d hd c hc => ((hgood r hmem).1.2 d hd).2.1 c hc
  have hbound2 : start + ln ≤ (r.2.flatten).length := by
    have : (recSeq r).length = (r.2.flatten).length := rfl
    omega
  have := get_core e.charsPerLine hcpl r.2 start ln e.seqLen (fileChars rs)
    tail2 e.byteOff hwr hnw hdecomp hbound2 hbound
  simpa [recSeq] using this

/-- C1 amended, witness: a two-record file uniformly wrapped at width 2;
reading `[1, 4)` of record 2 crosses a line boundary and returns `TAC`. -/
theorem indexed_get_correct_w :
    index_fasta (fileLines [(['a'], [['A','C'],['G']]),
        (['b'], [['T','T'],['A','C'],['G']])]) =
      .ok [⟨['a'], 3, 3, 2, 3⟩, ⟨['b'], 5, 11, 2, 3⟩] ∧
    [⟨['a'], 3, 3, 2, 3⟩, (⟨['b'], 5, 11, 2, 3⟩ : FaiEntry)].get? 1 =
      some ⟨['b'], 5, 11, 2, 3⟩ ∧
    1 + 3 ≤ 5 ∧
    (FastaIndexed.get (fileChars [(['a'], [['A','C'],['G']]),
        (['b'], [['T','T'],['A','C'],['G']])]) 11 5 2 3 1 3).1 =
      .ok (((recSeq (['b'], [['T','T'],['A','C'],['G']])).drop 1).take 3) := by
  refine ⟨by decide, by decide, by decide, ?_⟩
  exact indexed_get_correct 2
    [(['a'], [['A','C'],['G']]), (['b'], [['T','T'],['A','C'],['G']])]
    [⟨['a'], 3, 3, 2, 3⟩, ⟨['b'], 5, 11, 2, 3⟩] 1 ⟨['b'], 5, 11, 2, 3⟩
    (['b'], [['T','T'],['A','C'],['G']]) 1 3 (by decide)
    (by
      intro r2 hr2
      rcases List.mem_cons.mp hr2 with rfl | hr3
      · exact ⟨by decide, by simp [wrapped]⟩
      · rcases List.mem_singleton.mp hr3 with rfl
        exact ⟨by decide, by simp [wrapped]⟩)
    (by decide) (by decide) (by decide) (by decide)

end MedAi
